import Mathlib

/-
Verification development for the critsec static analyzer (package analysis).

The analyzer walks a Go syntax tree, catalogs struct types that embed
crit.Section, and checks that every field access on such a type is reachable
from the Lease method through the call graph.  The front end (parser, type
checker, inspector traversal, VTA call-graph builder) is an external
collaborator: the per-file catalog, the resolved type of each expression,
the convertibility relation and the traversal event stream are inputs to
the embedded analysis, exactly as they are inputs to the run() callback.
-/

namespace Critsec

/-- Name of the lease method, constant leaseFunction in the source. -/
def leaseFunction : String := "Lease"

/-- A resolved source position.  The field off models the token.Pos offset
(the key used for the inspectedPos map); file and line model the
token.Position that pass.Fset.Position resolves an offset to. -/
structure Pos where
  file : String
  line : Nat
  off  : Nat
deriving DecidableEq, Repr

/-- positionCompare from the source: two positions match when filename and
line agree (column and offset are ignored). -/
def positionCompare (a b : Pos) : Bool :=
  a.file == b.file && a.line == b.line

/-- A callable unit of the call graph: callgraph.Node carries an
ssa.Function, of which the analyzer reads only Name() and Pos(). -/
structure GFunc where
  name : String
  pos  : Pos
deriving DecidableEq, Repr

/-- A call-graph edge: callgraph.Edge with its Caller and Callee nodes. -/
structure Edge where
  caller : GFunc
  callee : GFunc
deriving DecidableEq, Repr

/-- The call graph as its edge collection.  The list order stands for the
order in which edges were added to each In list during construction. -/
abbrev Graph := List Edge

/-- The In list of a node: all edges whose callee is that function. -/
def ins (g : Graph) (f : GFunc) : List Edge :=
  g.filter (fun e => e.callee == f)

/-- The recursive check closure inside checkLease: succeed when the edge
caller is named Lease; otherwise recurse into the first incoming edge of
the caller (the Go for-range loop returns unconditionally in its first
iteration); fail when the caller has no incoming edge.  The source
recursion carries no visited set and can diverge on cyclic caller chains,
so the embedding uses explicit fuel: none means the fuel was exhausted. -/
def check (g : Graph) : Nat → Edge → Option Bool
  | 0, _ => none
  | n + 1, e =>
    if e.caller.name == leaseFunction then some true
    else
      match ins g e.caller with
      | [] => some false
      | e' :: _ => check g n e'

/-- The source check function terminates on an edge exactly when some
finite fuel suffices.  A terminating run of the deterministic chain never
revisits an edge, and every visited edge lies in the graph, so fuel
g.length + 1 is always enough for a terminating run. -/
def checkTerminates (g : Graph) (e : Edge) : Prop :=
  ∃ n, check g n e ≠ none

/-- The callgraph.GraphVisitEdges loop inside checkLease: visit the edges
in the given order; on an edge whose callee position matches the enclosing
function, run check; a successful check stops the visit (the done sentinel
error); a failed check moves on; an exhausted check means the source
function diverges, modelled as none. -/
def visitEdges (g : Graph) (p : Pos) : List Edge → Option Bool
  | [] => some false
  | e :: rest =>
    if positionCompare p e.callee.pos then
      match check g (g.length + 1) e with
      | none => none
      | some true => some true
      | some false => visitEdges g p rest
    else visitEdges g p rest

/-- checkLease from the source: true when some edge into the enclosing
function (matched by position) admits an upward walk that reaches the
Lease caller.  The enumeration order of GraphVisitEdges is the edge list
itself. -/
def checkLease (g : Graph) (p : Pos) : Option Bool :=
  visitEdges g p g

example : check [⟨⟨"Lease", ⟨"a.go", 1, 1⟩⟩, ⟨"f", ⟨"a.go", 5, 40⟩⟩⟩] 2
    ⟨⟨"Lease", ⟨"a.go", 1, 1⟩⟩, ⟨"f", ⟨"a.go", 5, 40⟩⟩⟩ = some true := by
  decide

example : checkLease [⟨⟨"Lease", ⟨"a.go", 1, 1⟩⟩, ⟨"f", ⟨"a.go", 5, 40⟩⟩⟩]
    ⟨"a.go", 5, 41⟩ = some true := by
  decide

example : checkLease [⟨⟨"g", ⟨"a.go", 1, 1⟩⟩, ⟨"f", ⟨"a.go", 5, 40⟩⟩⟩]
    ⟨"a.go", 5, 41⟩ = some false := by
  decide

/-- The shape of one function parameter type as the FuncDecl branch reads
it: a StarExpr whose operand is an identifier (carrying that name), a
StarExpr whose operand is anything else, a plain identifier, or any other
type expression (no switch case matches it). -/
inductive ParamTy where
  | star (base : Option String)
  | ident (name : String)
  | other
deriving DecidableEq, Repr

/-- One left-hand-side operand of an assignment, as the default branch of
the AssignStmt case reads it: a SelectorExpr carrying the resolved type of
its operand and the selected name, or any other expression. -/
inductive LhsExpr where
  | sel (xTy : String) (selName : String)
  | nonSel
deriving DecidableEq, Repr

/-- A syntax-tree node carrying exactly the fields the run() callback
reads.  Resolved types (pass.TypesInfo) are attached to the nodes that
consult them, as strings naming the type.  funcDecl: name and parameter
type list (none models a nil Params field).  selector: resolved type of
the operand and selected name.  valueSpec: the declared type when it is a
plain identifier.  assign: whether the token is the short declaration
token, the left-hand operands, and the type name when the first
right-hand operand is a composite literal of an identifier type.  funcLit
and other nodes only contribute their position. -/
inductive Node where
  | funcDecl (name : String) (params : Option (List ParamTy)) (pos : Pos)
  | funcLit (pos : Pos)
  | selector (xTy : String) (selName : String) (pos : Pos)
  | valueSpec (tyIdent : Option String) (pos : Pos)
  | assign (shortDecl : Bool) (lhs : List LhsExpr)
      (rhsComposite : Option String) (pos : Pos)
  | other (pos : Pos)
deriving DecidableEq, Repr

/-- The position of a node, n.Pos() in the source. -/
def Node.pos : Node → Pos
  | .funcDecl _ _ p => p
  | .funcLit p => p
  | .selector _ _ p => p
  | .valueSpec _ p => p
  | .assign _ _ _ p => p
  | .other p => p

/-- Per-file front-end context: the critSecTypesByName catalog built
before scanning (name and the string form of the registered type), and
the types.ConvertibleTo relation on type strings. -/
structure Ctx where
  catalog : List (String × String)
  conv : String → String → Bool

/-- The found test of the selector and assignment branches: the resolved
type converts to some value of the catalog map. -/
def typeMatches (ctx : Ctx) (xTy : String) : Bool :=
  ctx.catalog.any (fun c => ctx.conv xTy c.2)

/-- Membership among the catalog keys, the lookup critSecTypesByName[name]
used by the FuncDecl parameter branch. -/
def catalogHasName (ctx : Ctx) (name : String) : Bool :=
  ctx.catalog.any (fun c => c.1 == name)

/-- Whether a node is a FuncDecl or FuncLit, the two cases accepted by
nearestFunction. -/
def isFunc : Node → Bool
  | .funcDecl _ _ _ => true
  | .funcLit _ => true
  | _ => false

/-- nearestFunction from the source: scan the traversal stack from its
end backwards for the most recently pushed FuncDecl or FuncLit. -/
def nearestFunction (stack : List Node) : Option Node :=
  stack.reverse.find? isFunc

/-- isFunctionInGraph from the source: a FuncDecl named main is assumed
to be in the graph; otherwise the node is in the graph when some edge has
a callee at a matching position. -/
def isFunctionInGraph (g : Graph) (nf : Node) : Bool :=
  (match nf with
   | .funcDecl name _ _ => name == "main"
   | _ => false)
  || g.any (fun e => positionCompare nf.pos e.callee.pos)

/-- The four diagnostic strings the analyzer can emit. -/
def msgArgPass : String := "crit.Section types cannot be passed to a function"

/-- Diagnostic of the SelectorExpr branch. -/
def msgRead : String := "access of crit.Section without Lease"

/-- Diagnostic of the ValueSpec and short-declaration branches. -/
def msgMulti : String := "multiple instance of a crit.Section derived type"

/-- Diagnostic of the default AssignStmt branch. -/
def msgWrite : String := "assignment to crit.Section without Lease"

/-- One diagnostic reported by pass.Reportf: a position and a message. -/
structure Violation where
  pos : Pos
  msg : String
deriving DecidableEq, Repr

/-- The mutable state threaded through the tree walk: the inspectedPos
map (keyed by token.Pos offsets), the critSecTypesUsed map (keyed by type
names), and the diagnostics reported so far in order. -/
structure St where
  inspected : List Nat
  used : List String
  report : List Violation
deriving DecidableEq, Repr

/-- The state at the start of a file walk: all three maps empty. -/
def St.init : St := ⟨[], [], []⟩

/-- Append one diagnostic, pass.Reportf. -/
def reportv (st : St) (p : Pos) (m : String) : St :=
  { st with report := st.report ++ [⟨p, m⟩] }

/-- The FuncDecl parameter loop: left to right, stop and report at the
first parameter whose type is a cataloged identifier or a star of a
cataloged identifier; a star of anything but an identifier returns from
the whole callback, abandoning the rest of the list. -/
def paramsHit (ctx : Ctx) : List ParamTy → Bool
  | [] => false
  | .star none :: _ => false
  | .star (some n) :: ps =>
    if catalogHasName ctx n then true else paramsHit ctx ps
  | .ident n :: ps =>
    if catalogHasName ctx n then true else paramsHit ctx ps
  | .other :: ps => paramsHit ctx ps

/-- The shared body of the ValueSpec and short-declaration branches: a
name already in critSecTypesUsed is reported as a multiple instance at
this position, provided the nearest enclosing function exists and is in
the graph; a new name is recorded unconditionally. -/
def usedCheck (g : Graph) (st : St) (stack : List Node) (name : String)
    (p : Pos) : St :=
  if st.used.contains name then
    match nearestFunction stack with
    | none => st
    | some nf =>
      if isFunctionInGraph g nf then reportv st p msgMulti else st
  else { st with used := name :: st.used }

/-- The common tail of the callback for access nodes (lines following the
switch): find the nearest enclosing function, require it to be in the
graph, and report the prepared message unless checkLease succeeds.  A
diverging checkLease diverges the whole walk, modelled as none. -/
def accessCheck (g : Graph) (st : St) (stack : List Node) (msg : String)
    (p : Pos) : Option St :=
  match nearestFunction stack with
  | none => some st
  | some nf =>
    if isFunctionInGraph g nf then
      match checkLease g nf.pos with
      | none => none
      | some true => some st
      | some false => some (reportv st p msg)
    else some st

/-- One traversal callback invocation of inspect.WithStack: the node and
the stack of nodes leading to it.  The callback ignores the push flag, so
it is not modelled; the traversal may deliver the same node more than
once (entry and exit). -/
structure Event where
  node : Node
  stack : List Node
deriving Repr

/-- The switch of the run() callback, dispatching an uninspected node by
kind; st1 is the state with the node position already recorded.  The
FuncDecl branch requires liveness of the declaration itself before the
parameter loop; a nil parameter field returns at once.  The short
declaration and ValueSpec branches share the uniqueness logic.  The
default assignment branch examines only the last left-hand operand. -/
def stepNode (ctx : Ctx) (g : Graph) (stack : List Node) (st1 : St) :
    Node → Option St
  | .funcDecl _ none _ => some st1
  | .funcDecl name (some ps) p =>
    if isFunctionInGraph g (.funcDecl name (some ps) p) then
      if paramsHit ctx ps then some (reportv st1 p msgArgPass)
      else some st1
    else some st1
  | .selector xTy selName p =>
    if typeMatches ctx xTy then
      if selName == leaseFunction then some st1
      else accessCheck g st1 stack msgRead p
    else some st1
  | .valueSpec none _ => some st1
  | .valueSpec (some name) p => some (usedCheck g st1 stack name p)
  | .assign true _ none _ => some st1
  | .assign true _ (some name) p => some (usedCheck g st1 stack name p)
  | .assign false lhs _ p =>
    (match lhs.getLast? with
     | none => some st1
     | some .nonSel => some st1
     | some (.sel xTy _) =>
       if typeMatches ctx xTy then accessCheck g st1 stack msgWrite p
       else some st1)
  | .funcLit _ => some st1
  | .other _ => some st1

/-- One invocation of the run() callback on an event.  A position seen
before is ignored; otherwise the position is recorded and the node is
dispatched by kind exactly as the source switch does.  none models the
callback never returning because checkLease diverges. -/
def step (ctx : Ctx) (g : Graph) (st : St) (ev : Event) : Option St :=
  if st.inspected.contains ev.node.pos.off then some st
  else
    stepNode ctx g ev.stack
      { st with inspected := ev.node.pos.off :: st.inspected } ev.node

/-- The whole tree walk over a file: fold the callback over the event
stream, stopping (with none) if an event diverges. -/
def runEvents (ctx : Ctx) (g : Graph) : St → List Event → Option St
  | st, [] => some st
  | st, ev :: rest =>
    match step ctx g st ev with
    | none => none
    | some st' => runEvents ctx g st' rest

/-- The diagnostics of one file analysis, in emission order. -/
def runAnalyzer (ctx : Ctx) (g : Graph) (evs : List Event) :
    Option (List Violation) :=
  (runEvents ctx g St.init evs).map St.report

/- ------------------------------------------------------------------ -/
/- Supporting lemmas                                                   -/
/- ------------------------------------------------------------------ -/

/-- A successful visitEdges result is true exactly when some edge in the
visited list matches the position and its upward check succeeds. -/
lemma visitEdges_some_iff {g : Graph} {p : Pos} {l : List Edge} {b : Bool}
    (h : visitEdges g p l = some b) :
    (b = true ↔ ∃ e, e ∈ l ∧ positionCompare p e.callee.pos = true ∧
      check g (g.length + 1) e = some true) := by
  induction l generalizing b with
  | nil =>
    rw [visitEdges] at h
    injection h with h
    subst h
    simp
  | cons e rest ih =>
    rw [visitEdges] at h
    split at h
    case isTrue hp =>
      split at h
      case h_1 hc => exact Option.noConfusion h
      case h_2 hc =>
        injection h with h
        subst h
        simp only [true_iff]
        exact ⟨e, List.mem_cons_self e rest, hp, hc⟩
      case h_3 hc =>
        rw [ih h]
        constructor
        · rintro ⟨e', he', hpe', hce'⟩
          exact ⟨e', List.mem_cons_of_mem e he', hpe', hce'⟩
        · rintro ⟨e', he', hpe', hce'⟩
          rcases List.mem_cons.mp he' with rfl | hmem
          · rw [hc] at hce'
            exact absurd (Option.some.inj hce') (by simp)
          · exact ⟨e', hmem, hpe', hce'⟩
    case isFalse hp =>
      rw [ih h]
      constructor
      · rintro ⟨e', he', hpe', hce'⟩
        exact ⟨e', List.mem_cons_of_mem e he', hpe', hce'⟩
      · rintro ⟨e', he', hpe', hce'⟩
        rcases List.mem_cons.mp he' with rfl | hmem
        · exact absurd hpe' hp
        · exact ⟨e', hmem, hpe', hce'⟩

/-- When every matching edge admits a terminating check, visitEdges
returns the boolean existence of a successful matching edge. -/
lemma visitEdges_term {g : Graph} {p : Pos} : ∀ {l : List Edge},
    (∀ e ∈ l, positionCompare p e.callee.pos = true →
      check g (g.length + 1) e ≠ none) →
    visitEdges g p l = some (l.any fun e =>
      positionCompare p e.callee.pos && (check g (g.length + 1) e).getD false)
  | [], _ => rfl
  | e :: rest, h => by
    rw [visitEdges]
    by_cases hp : positionCompare p e.callee.pos = true
    · rw [if_pos hp]
      have hne := h e (List.mem_cons_self e rest) hp
      cases hc : check g (g.length + 1) e with
      | none => exact absurd hc hne
      | some b =>
        cases b with
        | true => simp [List.any_cons, hp, hc]
        | false =>
          rw [visitEdges_term (fun e' he' => h e' (List.mem_cons_of_mem e he'))]
          simp [List.any_cons, hp, hc]
    · rw [if_neg hp]
      rw [visitEdges_term (fun e' he' => h e' (List.mem_cons_of_mem e he'))]
      have hp' : positionCompare p e.callee.pos = false :=
        Bool.not_eq_true _ ▸ eq_false_of_ne_true hp
      simp [List.any_cons, hp']

/-- Boolean any is invariant under permutation of the list. -/
lemma any_perm {α : Type} {l₁ l₂ : List α} (h : l₁.Perm l₂) (f : α → Bool) :
    l₁.any f = l₂.any f := by
  cases h1 : l₁.any f <;> cases h2 : l₂.any f
  · rfl
  · rcases List.any_eq_true.mp h2 with ⟨x, hx, hfx⟩
    have : l₁.any f = true :=
      List.any_eq_true.mpr ⟨x, h.mem_iff.mpr hx, hfx⟩
    rw [h1] at this
    exact this
  · rcases List.any_eq_true.mp h1 with ⟨x, hx, hfx⟩
    have : l₂.any f = true :=
      List.any_eq_true.mpr ⟨x, h.mem_iff.mp hx, hfx⟩
    rw [h2] at this
    exact this.symm
  · rfl

/-- accessCheck evaluated at a live enclosing function with a resolved
checkLease: no report when guarded, one report when not. -/
lemma accessCheck_eq {g : Graph} {st : St} {stack : List Node} {msg : String}
    {p : Pos} {nf : Node} {b : Bool}
    (hnf : nearestFunction stack = some nf)
    (hlive : isFunctionInGraph g nf = true)
    (hcl : checkLease g nf.pos = some b) :
    accessCheck g st stack msg p =
      some (if b then st else reportv st p msg) := by
  unfold accessCheck
  rw [hnf]
  simp only [hlive, hcl, if_true]
  cases b <;> rfl

/-- A processed selector access node routes to accessCheck with the read
message, after recording its position. -/
lemma step_selector_eq {ctx : Ctx} {g : Graph} {st : St} {stack : List Node}
    {xTy sN : String} {p : Pos}
    (hin : st.inspected.contains p.off = false)
    (hfound : typeMatches ctx xTy = true)
    (hlease : (sN == leaseFunction) = false) :
    step ctx g st ⟨.selector xTy sN p, stack⟩ =
      accessCheck g { st with inspected := p.off :: st.inspected }
        stack msgRead p := by
  have hin' : ¬ p.off ∈ st.inspected := by simpa using hin
  unfold step
  simp [Node.pos, hin', stepNode, hfound, hlease]

/-- A processed assignment (not a short declaration) whose last left-hand
operand is a matched selector routes to accessCheck with the write
message, after recording its position. -/
lemma step_assignW_eq {ctx : Ctx} {g : Graph} {st : St} {stack : List Node}
    {lhs : List LhsExpr} {rhs : Option String} {xTy sN : String} {p : Pos}
    (hin : st.inspected.contains p.off = false)
    (hlast : lhs.getLast? = some (.sel xTy sN))
    (hfound : typeMatches ctx xTy = true) :
    step ctx g st ⟨.assign false lhs rhs p, stack⟩ =
      accessCheck g { st with inspected := p.off :: st.inspected }
        stack msgWrite p := by
  have hin' : ¬ p.off ∈ st.inspected := by simpa using hin
  unfold step
  simp [Node.pos, hin', stepNode, hlast, hfound]

/- ------------------------------------------------------------------ -/
/- Claims                                                              -/
/- ------------------------------------------------------------------ -/

/-- C1.  For an access site (read: a matched selector that is not the
lease selector; write: an assignment whose checked target is a matched
selector) processed at a fresh position, with a live enclosing function
nf and a terminating checkLease: the lease check succeeds exactly when
some call-graph edge whose callee position matches nf admits a successful
upward search, and the callback appends exactly one violation at the
access position when no search succeeds, and none when one does. -/
theorem spec_C1 (ctx : Ctx) (g : Graph) (st : St) (stack : List Node)
    (ev : Event) (xTy sN : String) (p : Pos) (msg : String) (nf : Node)
    (b : Bool) (st' : St)
    (hnode : (ev = ⟨.selector xTy sN p, stack⟩ ∧
        (sN == leaseFunction) = false ∧ msg = msgRead) ∨
      (∃ lhs rhs, ev = ⟨.assign false lhs rhs p, stack⟩ ∧
        lhs.getLast? = some (.sel xTy sN) ∧ msg = msgWrite))
    (hin : st.inspected.contains p.off = false)
    (hfound : typeMatches ctx xTy = true)
    (hnf : nearestFunction stack = some nf)
    (hlive : isFunctionInGraph g nf = true)
    (hcl : checkLease g nf.pos = some b)
    (hstep : step ctx g st ev = some st') :
    (b = true ↔ ∃ e, e ∈ g ∧ positionCompare nf.pos e.callee.pos = true ∧
        check g (g.length + 1) e = some true)
    ∧ st'.report = st.report ++ (if b then [] else [⟨p, msg⟩]) := by
  refine ⟨visitEdges_some_iff hcl, ?_⟩
  have hacc : accessCheck g { st with inspected := p.off :: st.inspected }
      stack msg p =
      some (if b then { st with inspected := p.off :: st.inspected }
        else reportv { st with inspected := p.off :: st.inspected } p msg) :=
    accessCheck_eq hnf hlive hcl
  rcases hnode with ⟨hev, hlease, hmsg⟩ | ⟨lhs, rhs, hev, hlast, hmsg⟩
  · subst hev; subst hmsg
    rw [step_selector_eq hin hfound hlease, hacc] at hstep
    injection hstep with hstep
    subst hstep
    cases b <;> simp [reportv]
  · subst hev; subst hmsg
    rw [step_assignW_eq hin hlast hfound, hacc] at hstep
    injection hstep with hstep
    subst hstep
    cases b <;> simp [reportv]

/-- C1 witness: main calls f, f reads a guarded field with no lease on
any caller path, so exactly one read violation is appended. -/
theorem spec_C1_witness :
    ((false = true) ↔ ∃ e,
        e ∈ ([⟨⟨"main", ⟨"a.go", 1, 1⟩⟩, ⟨"f", ⟨"a.go", 5, 50⟩⟩⟩] : Graph) ∧
        positionCompare ⟨"a.go", 5, 50⟩ e.callee.pos = true ∧
        check [⟨⟨"main", ⟨"a.go", 1, 1⟩⟩, ⟨"f", ⟨"a.go", 5, 50⟩⟩⟩] 2 e =
          some true)
    ∧ (St.mk [60] [] [⟨⟨"a.go", 6, 60⟩, msgRead⟩]).report =
        [⟨⟨"a.go", 6, 60⟩, msgRead⟩] :=
  spec_C1 ⟨[("G", "G")], fun a b => a == b⟩
    [⟨⟨"main", ⟨"a.go", 1, 1⟩⟩, ⟨"f", ⟨"a.go", 5, 50⟩⟩⟩] St.init
    [Node.funcDecl "f" (some []) ⟨"a.go", 5, 50⟩]
    ⟨.selector "G" "x" ⟨"a.go", 6, 60⟩,
      [Node.funcDecl "f" (some []) ⟨"a.go", 5, 50⟩]⟩
    "G" "x" ⟨"a.go", 6, 60⟩ msgRead
    (Node.funcDecl "f" (some []) ⟨"a.go", 5, 50⟩) false
    ⟨[60], [], [⟨⟨"a.go", 6, 60⟩, msgRead⟩]⟩
    (Or.inl ⟨rfl, by decide, rfl⟩) (by decide) (by decide) (by decide)
    (by decide) (by decide) (by decide)

/-- C2.  One step of the upward search: the path succeeds exactly when
the current caller is named Lease; otherwise, with at least one incoming
edge, the walk continues along exactly the first incoming edge and
ignores all other predecessors; with no incoming edge the path fails. -/
theorem spec_C2 (g : Graph) (e : Edge) (n : Nat) :
    ((e.caller.name == leaseFunction) = true → check g (n + 1) e = some true)
    ∧ ((e.caller.name == leaseFunction) = false →
        ∀ e' rest, ins g e.caller = e' :: rest →
          check g (n + 1) e = check g n e')
    ∧ ((e.caller.name == leaseFunction) = false → ins g e.caller = [] →
        check g (n + 1) e = some false) := by
  refine ⟨fun h => ?_, fun h e' rest hins => ?_, fun h hins => ?_⟩
  · rw [check, if_pos h]
  · rw [check, if_neg (by simp [h]), hins]
  · rw [check, if_neg (by simp [h]), hins]

/-- C2 witness: a Lease caller succeeds immediately; a self-loop caller
recurses into its own single incoming edge; a caller with no incoming
edge fails. -/
theorem spec_C2_witness :
    check [⟨⟨"Lease", ⟨"a.go", 1, 1⟩⟩, ⟨"f", ⟨"a.go", 2, 5⟩⟩⟩] 1
        ⟨⟨"Lease", ⟨"a.go", 1, 1⟩⟩, ⟨"f", ⟨"a.go", 2, 5⟩⟩⟩ = some true
    ∧ check [⟨⟨"f", ⟨"a.go", 1, 1⟩⟩, ⟨"f", ⟨"a.go", 1, 1⟩⟩⟩] 2
        ⟨⟨"f", ⟨"a.go", 1, 1⟩⟩, ⟨"f", ⟨"a.go", 1, 1⟩⟩⟩ =
      check [⟨⟨"f", ⟨"a.go", 1, 1⟩⟩, ⟨"f", ⟨"a.go", 1, 1⟩⟩⟩] 1
        ⟨⟨"f", ⟨"a.go", 1, 1⟩⟩, ⟨"f", ⟨"a.go", 1, 1⟩⟩⟩
    ∧ check [] 1 ⟨⟨"g", ⟨"a.go", 1, 1⟩⟩, ⟨"f", ⟨"a.go", 2, 5⟩⟩⟩ =
        some false :=
  ⟨(spec_C2 _ _ 0).1 (by decide),
   (spec_C2 _ _ 1).2.1 (by decide) _ [] (by decide),
   (spec_C2 _ _ 0).2.2 (by decide) (by decide)⟩

/-- C3.  A node is live exactly when it is a function declaration named
main or some call-graph edge has a callee at a matching position; and a
callback invocation whose own declaration is dead and whose nearest
enclosing function is dead reports nothing, whatever the node kind. -/
theorem spec_C3 :
    (∀ (g : Graph) (nf : Node),
      isFunctionInGraph g nf = true ↔
        ((∃ ps p, nf = Node.funcDecl "main" ps p) ∨
         ∃ e, e ∈ g ∧ positionCompare nf.pos e.callee.pos = true))
    ∧ (∀ (ctx : Ctx) (g : Graph) (st : St) (node : Node)
        (stack : List Node) (st' : St),
        isFunctionInGraph g node = false →
        (∀ nf, nearestFunction stack = some nf →
          isFunctionInGraph g nf = false) →
        step ctx g st ⟨node, stack⟩ = some st' → st'.report = st.report) := by
  constructor
  · intro g nf
    cases nf <;>
      simp [isFunctionInGraph, List.any_eq_true, Node.pos, Bool.or_eq_true,
        beq_iff_eq]
  · intro ctx g st node stack st' hdead hnear hstep
    have husedrep : ∀ (st0 : St) (name : String) (p : Pos),
        (usedCheck g st0 stack name p).report = st0.report := by
      intro st0 name p
      unfold usedCheck
      split
      · cases hnf : nearestFunction stack with
        | none => rfl
        | some nf => simp [hnf, hnear nf hnf]
      · rfl
    have haccrep : ∀ (st0 st1 : St) (msg : String) (p : Pos),
        accessCheck g st0 stack msg p = some st1 → st1 = st0 := by
      intro st0 st1 msg p hacc
      unfold accessCheck at hacc
      cases hnf : nearestFunction stack with
      | none => rw [hnf] at hacc; exact (Option.some.inj hacc).symm
      | some nf =>
        rw [hnf] at hacc
        simp [hnear nf hnf] at hacc
        exact hacc.symm
    unfold step at hstep
    split at hstep
    · rw [← Option.some.inj hstep]
    · cases node with
      | funcDecl name params p =>
        cases params with
        | none => rw [← Option.some.inj hstep]
        | some ps =>
          rw [show stepNode ctx g stack _ (.funcDecl name (some ps) p) =
              (if isFunctionInGraph g (.funcDecl name (some ps) p) then
                if paramsHit ctx ps then
                  some (reportv _ p msgArgPass)
                else some _
              else some _) from rfl, hdead] at hstep
          simp at hstep
          rw [← hstep]
      | funcLit p => rw [← Option.some.inj hstep]
      | selector xTy sN p =>
        rw [show stepNode ctx g stack _ (.selector xTy sN p) =
            (if typeMatches ctx xTy then
              if sN == leaseFunction then some _
              else accessCheck g _ stack msgRead p
            else some _) from rfl] at hstep
        split at hstep
        · split at hstep
          · rw [← Option.some.inj hstep]
          · rw [haccrep _ _ _ _ hstep]
        · rw [← Option.some.inj hstep]
      | valueSpec tyIdent p =>
        cases tyIdent with
        | none => rw [← Option.some.inj hstep]
        | some name =>
          rw [show stepNode ctx g stack _ (.valueSpec (some name) p) =
              some (usedCheck g _ stack name p) from rfl] at hstep
          rw [← Option.some.inj hstep, husedrep]
      | assign shortDecl lhs rhs p =>
        cases shortDecl with
        | true =>
          cases rhs with
          | none => rw [← Option.some.inj hstep]
          | some name =>
            rw [show stepNode ctx g stack _ (.assign true lhs (some name) p) =
                some (usedCheck g _ stack name p) from rfl] at hstep
            rw [← Option.some.inj hstep, husedrep]
        | false =>
          rw [show stepNode ctx g stack _ (.assign false lhs rhs p) =
              (match lhs.getLast? with
               | none => some _
               | some .nonSel => some _
               | some (.sel xTy _) =>
                 if typeMatches ctx xTy then accessCheck g _ stack msgWrite p
                 else some _) from rfl] at hstep
          split at hstep
          · rw [← Option.some.inj hstep]
          · rw [← Option.some.inj hstep]
          · split at hstep
            · rw [haccrep _ _ _ _ hstep]
            · rw [← Option.some.inj hstep]
      | other p => rw [← Option.some.inj hstep]

/-- C3 witness: a guarded read inside a function with no incoming edge
and an empty graph reports nothing. -/
theorem spec_C3_witness :
    (St.mk [30] [] []).report = St.init.report :=
  spec_C3.2 ⟨[("G", "G")], fun a b => a == b⟩ [] St.init
    (.selector "G" "x" ⟨"a.go", 3, 30⟩)
    [Node.funcDecl "f" (some []) ⟨"a.go", 2, 20⟩]
    ⟨[30], [], []⟩ (by decide)
    (by
      intro nf h
      rw [show nearestFunction [Node.funcDecl "f" (some []) ⟨"a.go", 2, 20⟩] =
          some (Node.funcDecl "f" (some []) ⟨"a.go", 2, 20⟩) from rfl] at h
      injection h with h
      subst h
      decide)
    (by decide)

/-- Whether one parameter type, on its own, triggers the arg-pass report:
a cataloged identifier or a star of a cataloged identifier. -/
def hitParam (ctx : Ctx) : ParamTy → Bool
  | .star (some n) => catalogHasName ctx n
  | .ident n => catalogHasName ctx n
  | _ => false

/-- The parameter loop never reports once it meets a star of a
non-identifier operand, whatever follows it. -/
lemma paramsHit_stop {ctx : Ctx} : ∀ (l₁ l₂ : List ParamTy),
    (∀ q ∈ l₁, hitParam ctx q = false) →
    paramsHit ctx (l₁ ++ .star none :: l₂) = false
  | [], _, _ => rfl
  | q :: l₁, l₂, h => by
    have hq := h q (List.mem_cons_self q l₁)
    have hrest := fun q' hq' => h q' (List.mem_cons_of_mem q hq')
    cases q with
    | star base =>
      cases base with
      | none => rfl
      | some n =>
        have : catalogHasName ctx n = false := hq
        simp only [List.cons_append, paramsHit, this, if_false]
        exact paramsHit_stop l₁ l₂ hrest
    | ident n =>
      have : catalogHasName ctx n = false := hq
      simp only [List.cons_append, paramsHit, this, if_false]
      exact paramsHit_stop l₁ l₂ hrest
    | other =>
      simp only [List.cons_append, paramsHit]
      exact paramsHit_stop l₁ l₂ hrest

/-- The parameter loop reports at the first triggering parameter when
nothing before it triggers or aborts the loop. -/
lemma paramsHit_hit {ctx : Ctx} : ∀ (l₁ : List ParamTy) (q : ParamTy)
    (l₂ : List ParamTy), hitParam ctx q = true →
    (∀ q' ∈ l₁, hitParam ctx q' = false ∧ q' ≠ .star none) →
    paramsHit ctx (l₁ ++ q :: l₂) = true
  | [], q, l₂, hq, _ => by
    cases q with
    | star base =>
      cases base with
      | none => exact absurd hq (by simp [hitParam])
      | some n => simp only [List.nil_append, paramsHit, hitParam] at hq ⊢
                  simp [hq]
    | ident n => simp only [List.nil_append, paramsHit, hitParam] at hq ⊢
                 simp [hq]
    | other => exact absurd hq (by simp [hitParam])
  | q' :: l₁, q, l₂, hq, h => by
    have hq' := h q' (List.mem_cons_self q' l₁)
    have hrest := fun x hx => h x (List.mem_cons_of_mem q' hx)
    cases q' with
    | star base =>
      cases base with
      | none => exact absurd rfl hq'.2
      | some n =>
        have : catalogHasName ctx n = false := hq'.1
        simp only [List.cons_append, paramsHit, this, if_false]
        exact paramsHit_hit l₁ q l₂ hq hrest
    | ident n =>
      have : catalogHasName ctx n = false := hq'.1
      simp only [List.cons_append, paramsHit, this, if_false]
      exact paramsHit_hit l₁ q l₂ hq hrest
    | other =>
      simp only [List.cons_append, paramsHit]
      exact paramsHit_hit l₁ q l₂ hq hrest

/-- A processed live function declaration reports the arg-pass message
exactly when the parameter loop triggers. -/
lemma step_funcDecl_eq {ctx : Ctx} {g : Graph} {st : St} {stack : List Node}
    {name : String} {ps : List ParamTy} {p : Pos}
    (hin : st.inspected.contains p.off = false)
    (hlive : isFunctionInGraph g (.funcDecl name (some ps) p) = true) :
    step ctx g st ⟨.funcDecl name (some ps) p, stack⟩ =
      some (if paramsHit ctx ps then
        reportv { st with inspected := p.off :: st.inspected } p msgArgPass
      else { st with inspected := p.off :: st.inspected }) := by
  have hin' : ¬ p.off ∈ st.inspected := by simpa using hin
  unfold step
  simp only [Node.pos, stepNode, hlive, if_true]
  rw [if_neg (by simpa using hin')]
  split <;> rfl

/-- C4 counterexample.  A live function whose parameter list is a star
of a non-identifier followed by a cataloged guarded type produces no
arg-pass violation at all: the loop returns from the whole callback at
the first parameter, although the list does contain a cataloged type. -/
theorem spec_C4_cex :
    isFunctionInGraph [⟨⟨"main", ⟨"a.go", 1, 1⟩⟩, ⟨"f", ⟨"a.go", 5, 50⟩⟩⟩]
      (.funcDecl "f" (some [.star none, .ident "G"]) ⟨"a.go", 5, 50⟩) = true
    ∧ catalogHasName ⟨[("G", "G")], fun _ _ => false⟩ "G" = true
    ∧ runAnalyzer ⟨[("G", "G")], fun _ _ => false⟩
        [⟨⟨"main", ⟨"a.go", 1, 1⟩⟩, ⟨"f", ⟨"a.go", 5, 50⟩⟩⟩]
        [⟨.funcDecl "f" (some [.star none, .ident "G"]) ⟨"a.go", 5, 50⟩, []⟩]
      = some [] := by
  decide

/-- C4 as amended.  For a live declaration the parameters are scanned
left to right: a star of a non-identifier stops the scan with no
violation, whatever follows; otherwise the first cataloged parameter
(identifier or star of an identifier) yields exactly one arg-pass
violation at the declaration position, whatever follows and however many
further parameters match.  (The body is still traversed afterwards:
accesses through the parameter are checked like any other access.) -/
theorem spec_C4 (ctx : Ctx) (g : Graph) (st : St) (name : String)
    (ps : List ParamTy) (p : Pos) (stack : List Node) (st' : St)
    (hin : st.inspected.contains p.off = false)
    (hlive : isFunctionInGraph g (.funcDecl name (some ps) p) = true)
    (hstep : step ctx g st ⟨.funcDecl name (some ps) p, stack⟩ = some st') :
    (∀ l₁ l₂, ps = l₁ ++ .star none :: l₂ →
        (∀ q ∈ l₁, hitParam ctx q = false) → st'.report = st.report)
    ∧ (∀ l₁ q l₂, ps = l₁ ++ q :: l₂ → hitParam ctx q = true →
        (∀ q' ∈ l₁, hitParam ctx q' = false ∧ q' ≠ .star none) →
        st'.report = st.report ++ [⟨p, msgArgPass⟩]) := by
  rw [step_funcDecl_eq hin hlive] at hstep
  constructor
  · intro l₁ l₂ hps h
    subst hps
    rw [paramsHit_stop l₁ l₂ h] at hstep
    rw [← Option.some.inj hstep]
    simp
  · intro l₁ q l₂ hps hq h
    subst hps
    rw [paramsHit_hit l₁ q l₂ hq h] at hstep
    rw [← Option.some.inj hstep]
    simp [reportv]

/-- C4 witness: a live function with a non-triggering first parameter
and a cataloged second parameter reports exactly one arg-pass violation
at the declaration. -/
theorem spec_C4_witness :
    (St.mk [50] [] [⟨⟨"a.go", 5, 50⟩, msgArgPass⟩]).report =
      [⟨⟨"a.go", 5, 50⟩, msgArgPass⟩] :=
  (spec_C4 ⟨[("G", "G")], fun _ _ => false⟩
    [⟨⟨"main", ⟨"a.go", 1, 1⟩⟩, ⟨"f", ⟨"a.go", 5, 50⟩⟩⟩] St.init "f"
    [.other, .ident "G"] ⟨"a.go", 5, 50⟩ []
    ⟨[50], [], [⟨⟨"a.go", 5, 50⟩, msgArgPass⟩]⟩
    (by decide) (by decide) (by decide)).2
    [.other] (.ident "G") [] (by decide) (by decide) (by decide)

/-- C5 counterexample.  The registry records a name whose only
instantiation so far lies in a dead function (the recording line runs
before any liveness test), and a later live instantiation of that name
then fires a multiple-instance violation, although the name was never
instantiated in live code before. -/
theorem spec_C5_cex :
    isFunctionInGraph [⟨⟨"main", ⟨"a.go", 1, 1⟩⟩, ⟨"f", ⟨"a.go", 5, 50⟩⟩⟩]
      (Node.funcDecl "d" (some []) ⟨"a.go", 2, 20⟩) = false
    ∧ runEvents ⟨[("G", "G")], fun _ _ => false⟩
        [⟨⟨"main", ⟨"a.go", 1, 1⟩⟩, ⟨"f", ⟨"a.go", 5, 50⟩⟩⟩] St.init
        [⟨.valueSpec (some "G") ⟨"a.go", 3, 30⟩,
          [Node.funcDecl "d" (some []) ⟨"a.go", 2, 20⟩]⟩]
      = some ⟨[30], ["G"], []⟩
    ∧ runAnalyzer ⟨[("G", "G")], fun _ _ => false⟩
        [⟨⟨"main", ⟨"a.go", 1, 1⟩⟩, ⟨"f", ⟨"a.go", 5, 50⟩⟩⟩]
        [⟨.valueSpec (some "G") ⟨"a.go", 3, 30⟩,
          [Node.funcDecl "d" (some []) ⟨"a.go", 2, 20⟩]⟩,
         ⟨.valueSpec (some "G") ⟨"a.go", 6, 60⟩,
          [Node.funcDecl "f" (some []) ⟨"a.go", 5, 50⟩]⟩]
      = some [⟨⟨"a.go", 6, 60⟩, msgMulti⟩] := by
  decide

/-- C5 as amended.  An instantiation event (a ValueSpec with an
identifier type, or a short declaration of a composite of an identifier
type) records its type name on first sight unconditionally — whether or
not the enclosing code is live and whether or not the name is cataloged;
an instantiation of an already-recorded name yields exactly one
multiple-instance violation at its position when the nearest enclosing
function is live, and none when it is dead. -/
theorem spec_C5 (ctx : Ctx) (g : Graph) (st : St) (stack : List Node)
    (name : String) (p : Pos) (node : Node)
    (hnode : node = .valueSpec (some name) p ∨
      ∃ lhs, node = .assign true lhs (some name) p)
    (hin : st.inspected.contains p.off = false) :
    step ctx g st ⟨node, stack⟩ =
      some (usedCheck g { st with inspected := p.off :: st.inspected }
        stack name p)
    ∧ (st.used.contains name = false →
        usedCheck g { st with inspected := p.off :: st.inspected }
          stack name p =
        { st with inspected := p.off :: st.inspected,
                  used := name :: st.used })
    ∧ (st.used.contains name = true → ∀ nf,
        nearestFunction stack = some nf →
        (isFunctionInGraph g nf = true →
          usedCheck g { st with inspected := p.off :: st.inspected }
            stack name p =
          reportv { st with inspected := p.off :: st.inspected } p msgMulti)
        ∧ (isFunctionInGraph g nf = false →
          usedCheck g { st with inspected := p.off :: st.inspected }
            stack name p =
          { st with inspected := p.off :: st.inspected })) := by
  have hin' : ¬ p.off ∈ st.inspected := by simpa using hin
  refine ⟨?_, ?_, ?_⟩
  · rcases hnode with h | ⟨lhs, h⟩ <;> subst h <;>
      (unfold step; simp [Node.pos, hin', stepNode])
  · intro h
    have h' : ¬ name ∈ st.used := by simpa using h
    unfold usedCheck
    simp [h']
  · intro h nf hnf
    have h' : name ∈ st.used := by simpa using h
    constructor <;> intro hlive <;>
      (unfold usedCheck; simp [h', hnf, hlive])

/-- C5 witness: with the name already recorded and a live nearest
function, the second instantiation appends exactly the multiple-instance
violation. -/
theorem spec_C5_witness :
    usedCheck [⟨⟨"main", ⟨"a.go", 1, 1⟩⟩, ⟨"f", ⟨"a.go", 5, 50⟩⟩⟩]
      ⟨[60, 30], ["G"], []⟩ [Node.funcDecl "f" (some []) ⟨"a.go", 5, 50⟩]
      "G" ⟨"a.go", 6, 60⟩ =
    reportv ⟨[60, 30], ["G"], []⟩ ⟨"a.go", 6, 60⟩ msgMulti :=
  ((spec_C5 ⟨[("G", "G")], fun _ _ => false⟩
    [⟨⟨"main", ⟨"a.go", 1, 1⟩⟩, ⟨"f", ⟨"a.go", 5, 50⟩⟩⟩]
    ⟨[30], ["G"], []⟩ [Node.funcDecl "f" (some []) ⟨"a.go", 5, 50⟩]
    "G" ⟨"a.go", 6, 60⟩ (.valueSpec (some "G") ⟨"a.go", 6, 60⟩)
    (Or.inl rfl) (by decide)).2.2 (by decide)
    (Node.funcDecl "f" (some []) ⟨"a.go", 5, 50⟩) (by decide)).1 (by decide)

/-- A processed assignment (not a short declaration) whose last left-hand
operand is not a selector only records its position. -/
lemma step_assignN_eq {ctx : Ctx} {g : Graph} {st : St} {stack : List Node}
    {lhs : List LhsExpr} {rhs : Option String} {p : Pos}
    (hin : st.inspected.contains p.off = false)
    (hlast : lhs.getLast? = some .nonSel) :
    step ctx g st ⟨.assign false lhs rhs p, stack⟩ =
      some { st with inspected := p.off :: st.inspected } := by
  have hin' : ¬ p.off ∈ st.inspected := by simpa using hin
  unfold step
  simp [Node.pos, hin', stepNode, hlast]

/-- C6 counterexample.  In the assignment g.x, a = 1, 2 the left-most
ultimate target selects a field on a matched guarded type inside a live,
unguarded function, yet no violation is produced: the branch examines
only the last left-hand operand, which is not a selector. -/
theorem spec_C6_cex :
    [LhsExpr.sel "G" "x", LhsExpr.nonSel].head? = some (.sel "G" "x")
    ∧ typeMatches ⟨[("G", "G")], fun a b => a == b⟩ "G" = true
    ∧ isFunctionInGraph [⟨⟨"main", ⟨"a.go", 1, 1⟩⟩, ⟨"f", ⟨"a.go", 5, 50⟩⟩⟩]
        (Node.funcDecl "f" (some []) ⟨"a.go", 5, 50⟩) = true
    ∧ checkLease [⟨⟨"main", ⟨"a.go", 1, 1⟩⟩, ⟨"f", ⟨"a.go", 5, 50⟩⟩⟩]
        ⟨"a.go", 5, 50⟩ = some false
    ∧ runAnalyzer ⟨[("G", "G")], fun a b => a == b⟩
        [⟨⟨"main", ⟨"a.go", 1, 1⟩⟩, ⟨"f", ⟨"a.go", 5, 50⟩⟩⟩]
        [⟨.assign false [.sel "G" "x", .nonSel] none ⟨"a.go", 6, 60⟩,
          [Node.funcDecl "f" (some []) ⟨"a.go", 5, 50⟩]⟩]
      = some [] := by
  decide

/-- C6 as amended.  The write AccessSite of an assignment that is not a
short declaration is determined from the right-most (last) target: if
that target is a field selection on a matched guarded type it is
classified as a write access (the selected name is ignored: the lease
selector is not excluded in this branch), and an assignment whose last
target is not a selector is never a write access, whatever its earlier
targets select. -/
theorem spec_C6 (ctx : Ctx) (g : Graph) (st : St) (stack : List Node)
    (lhs : List LhsExpr) (rhs : Option String) (p : Pos) (st' : St)
    (hin : st.inspected.contains p.off = false)
    (hstep : step ctx g st ⟨.assign false lhs rhs p, stack⟩ = some st') :
    (∀ xTy sN nf b, lhs.getLast? = some (.sel xTy sN) →
        typeMatches ctx xTy = true →
        nearestFunction stack = some nf → isFunctionInGraph g nf = true →
        checkLease g nf.pos = some b →
        st'.report = st.report ++ (if b then [] else [⟨p, msgWrite⟩]))
    ∧ (lhs.getLast? = some .nonSel →
        st' = { st with inspected := p.off :: st.inspected }) := by
  constructor
  · intro xTy sN nf b hlast hfound hnf hlive hcl
    rw [step_assignW_eq hin hlast hfound, accessCheck_eq hnf hlive hcl]
      at hstep
    rw [← Option.some.inj hstep]
    cases b <;> simp [reportv]
  · intro hlast
    rw [step_assignN_eq hin hlast] at hstep
    exact (Option.some.inj hstep).symm

/-- C6 witness: an assignment whose last target selects a field on a
matched guarded type, in a live unguarded function, appends exactly one
write violation at the assignment position. -/
theorem spec_C6_witness :
    (St.mk [60] [] [⟨⟨"a.go", 6, 60⟩, msgWrite⟩]).report =
      [⟨⟨"a.go", 6, 60⟩, msgWrite⟩] :=
  (spec_C6 ⟨[("G", "G")], fun a b => a == b⟩
    [⟨⟨"main", ⟨"a.go", 1, 1⟩⟩, ⟨"f", ⟨"a.go", 5, 50⟩⟩⟩] St.init
    [Node.funcDecl "f" (some []) ⟨"a.go", 5, 50⟩]
    [.nonSel, .sel "G" "x"] none ⟨"a.go", 6, 60⟩
    ⟨[60], [], [⟨⟨"a.go", 6, 60⟩, msgWrite⟩]⟩
    (by decide) (by decide)).1 "G" "x"
    (Node.funcDecl "f" (some []) ⟨"a.go", 5, 50⟩) false
    (by decide) (by decide) (by decide) (by decide) (by decide)

/-- usedCheck never touches the inspected set and appends at most the
multiple-instance violation at the given position. -/
lemma usedCheck_char (g : Graph) (st : St) (stack : List Node)
    (name : String) (p : Pos) :
    (usedCheck g st stack name p).inspected = st.inspected ∧
    ((usedCheck g st stack name p).report = st.report ∨
     (usedCheck g st stack name p).report = st.report ++ [⟨p, msgMulti⟩]) := by
  cases hused : st.used.contains name with
  | false =>
    have h' : ¬ name ∈ st.used := by simpa using hused
    unfold usedCheck
    simp [h']
  | true =>
    have h' : name ∈ st.used := by simpa using hused
    unfold usedCheck
    cases hnf : nearestFunction stack with
    | none => simp [h', hnf]
    | some nf =>
      cases hlive : isFunctionInGraph g nf with
      | false => simp [h', hnf, hlive]
      | true => simp [h', hnf, hlive, reportv]

/-- accessCheck never touches the inspected set and appends at most its
message at the given position. -/
lemma accessCheck_char {g : Graph} {st : St} {stack : List Node}
    {msg : String} {p : Pos} {st' : St}
    (h : accessCheck g st stack msg p = some st') :
    st'.inspected = st.inspected ∧
    (st'.report = st.report ∨ st'.report = st.report ++ [⟨p, msg⟩]) := by
  unfold accessCheck at h
  cases hnf : nearestFunction stack with
  | none =>
    rw [hnf] at h
    rw [← Option.some.inj h]
    exact ⟨rfl, Or.inl rfl⟩
  | some nf =>
    rw [hnf] at h
    cases hlive : isFunctionInGraph g nf with
    | false =>
      simp only [hlive, Bool.false_eq_true, if_false] at h
      rw [← Option.some.inj h]
      exact ⟨rfl, Or.inl rfl⟩
    | true =>
      simp only [hlive, if_true] at h
      cases hcl : checkLease g nf.pos with
      | none => rw [hcl] at h; exact Option.noConfusion h
      | some b =>
        rw [hcl] at h
        cases b with
        | true => rw [← Option.some.inj h]; exact ⟨rfl, Or.inl rfl⟩
        | false =>
          rw [← Option.some.inj h]
          exact ⟨rfl, Or.inr rfl⟩

/-- One callback invocation either skips an already-inspected position
and leaves the state alone, or records a fresh position and appends at
most one violation, located at the node position and carrying one of the
four messages. -/
lemma step_char {ctx : Ctx} {g : Graph} {st : St} {ev : Event} {st' : St}
    (h : step ctx g st ev = some st') :
    (st' = st ∧ st.inspected.contains ev.node.pos.off = true)
    ∨ (st.inspected.contains ev.node.pos.off = false
       ∧ st'.inspected = ev.node.pos.off :: st.inspected
       ∧ (st'.report = st.report ∨
          ∃ m, st'.report = st.report ++ [⟨ev.node.pos, m⟩] ∧
            (m = msgArgPass ∨ m = msgRead ∨ m = msgMulti ∨ m = msgWrite))) := by
  obtain ⟨node, stack⟩ := ev
  unfold step at h
  split at h
  case isTrue hc => exact Or.inl ⟨(Option.some.inj h).symm, hc⟩
  case isFalse hc =>
    refine Or.inr ⟨by simpa using hc, ?_⟩
    cases node with
    | funcDecl name params p =>
      cases params with
      | none =>
        rw [← Option.some.inj h]
        exact ⟨rfl, Or.inl rfl⟩
      | some ps =>
        simp only [stepNode] at h
        split at h
        · split at h
          · rw [← Option.some.inj h]
            exact ⟨rfl, Or.inr ⟨msgArgPass, rfl, Or.inl rfl⟩⟩
          · rw [← Option.some.inj h]
            exact ⟨rfl, Or.inl rfl⟩
        · rw [← Option.some.inj h]
          exact ⟨rfl, Or.inl rfl⟩
    | funcLit p =>
      rw [← Option.some.inj h]
      exact ⟨rfl, Or.inl rfl⟩
    | selector xTy sN p =>
      simp only [stepNode] at h
      split at h
      · split at h
        · rw [← Option.some.inj h]
          exact ⟨rfl, Or.inl rfl⟩
        · rcases accessCheck_char h with ⟨hi, hr⟩
          refine ⟨hi, ?_⟩
          rcases hr with hr | hr
          · exact Or.inl hr
          · exact Or.inr ⟨msgRead, hr, Or.inr (Or.inl rfl)⟩
      · rw [← Option.some.inj h]
        exact ⟨rfl, Or.inl rfl⟩
    | valueSpec tyIdent p =>
      cases tyIdent with
      | none =>
        rw [← Option.some.inj h]
        exact ⟨rfl, Or.inl rfl⟩
      | some name =>
        simp only [stepNode] at h
        rw [← Option.some.inj h]
        rcases usedCheck_char g _ stack name p with ⟨hi, hr⟩
        refine ⟨hi, ?_⟩
        rcases hr with hr | hr
        · exact Or.inl hr
        · exact Or.inr ⟨msgMulti, hr, Or.inr (Or.inr (Or.inl rfl))⟩
    | assign shortDecl lhs rhs p =>
      cases shortDecl with
      | true =>
        cases rhs with
        | none =>
          rw [← Option.some.inj h]
          exact ⟨rfl, Or.inl rfl⟩
        | some name =>
          simp only [stepNode] at h
          rw [← Option.some.inj h]
          rcases usedCheck_char g _ stack name p with ⟨hi, hr⟩
          refine ⟨hi, ?_⟩
          rcases hr with hr | hr
          · exact Or.inl hr
          · exact Or.inr ⟨msgMulti, hr, Or.inr (Or.inr (Or.inl rfl))⟩
      | false =>
        simp only [stepNode] at h
        split at h
        · rw [← Option.some.inj h]
          exact ⟨rfl, Or.inl rfl⟩
        · rw [← Option.some.inj h]
          exact ⟨rfl, Or.inl rfl⟩
        · split at h
          · rcases accessCheck_char h with ⟨hi, hr⟩
            refine ⟨hi, ?_⟩
            rcases hr with hr | hr
            · exact Or.inl hr
            · exact Or.inr ⟨msgWrite, hr, Or.inr (Or.inr (Or.inr rfl))⟩
          · rw [← Option.some.inj h]
            exact ⟨rfl, Or.inl rfl⟩
    | other p =>
      rw [← Option.some.inj h]
      exact ⟨rfl, Or.inl rfl⟩

/-- Invariant of the walk state: inspected positions are pairwise
distinct, reported positions are pairwise distinct, and every reported
position has been inspected. -/
def InvSt (st : St) : Prop :=
  st.inspected.Nodup
  ∧ (st.report.map fun v => v.pos.off).Nodup
  ∧ ∀ v ∈ st.report, v.pos.off ∈ st.inspected

/-- The initial state satisfies the invariant. -/
lemma invSt_init : InvSt St.init := by
  refine ⟨List.nodup_nil, List.nodup_nil, ?_⟩
  intro v hv
  simp [St.init] at hv

/-- One callback invocation preserves the invariant. -/
lemma step_inv {ctx : Ctx} {g : Graph} {st : St} {ev : Event} {st' : St}
    (h : step ctx g st ev = some st') (hi : InvSt st) : InvSt st' := by
  rcases step_char h with ⟨rfl, _⟩ | ⟨hfresh, hins, hrep⟩
  · exact hi
  · have hnotmem : ¬ ev.node.pos.off ∈ st.inspected := by simpa using hfresh
    obtain ⟨hnodupIns, hnodupRep, hmem⟩ := hi
    refine ⟨?_, ?_, ?_⟩
    · rw [hins]
      exact List.nodup_cons.mpr ⟨hnotmem, hnodupIns⟩
    · rcases hrep with hr | ⟨m, hr, _⟩
      · rw [hr]; exact hnodupRep
      · rw [hr, List.map_append]
        refine List.Nodup.append hnodupRep (List.nodup_singleton _) ?_
        intro x hx hx'
        simp only [List.map_cons, List.map_nil, List.mem_singleton] at hx'
        subst hx'
        rcases List.mem_map.mp hx with ⟨v, hv, hvo⟩
        exact hnotmem (hvo ▸ hmem v hv)
    · intro v hv
      rcases hrep with hr | ⟨m, hr, _⟩
      · rw [hr] at hv
        rw [hins]
        exact List.mem_cons_of_mem _ (hmem v hv)
      · rw [hr] at hv
        rw [hins]
        rcases List.mem_append.mp hv with hv | hv
        · exact List.mem_cons_of_mem _ (hmem v hv)
        · simp only [List.mem_singleton] at hv
          subst hv
          exact List.mem_cons_self _ _

/-- The walk preserves the invariant. -/
lemma runEvents_inv {ctx : Ctx} {g : Graph} : ∀ {evs : List Event}
    {st st' : St}, InvSt st → runEvents ctx g st evs = some st' → InvSt st'
  | [], st, st', hi, h => (Option.some.inj h) ▸ hi
  | ev :: rest, st, st', hi, h => by
    rw [runEvents] at h
    cases hstep : step ctx g st ev with
    | none => rw [hstep] at h; exact Option.noConfusion h
    | some st2 =>
      rw [hstep] at h
      exact runEvents_inv (step_inv hstep hi) h

/-- The walk over an appended event list is the composition of the two
walks. -/
lemma runEvents_append (ctx : Ctx) (g : Graph) : ∀ (l₁ l₂ : List Event)
    (st : St), runEvents ctx g st (l₁ ++ l₂) =
      (runEvents ctx g st l₁).bind (fun s => runEvents ctx g s l₂)
  | [], _, _ => rfl
  | ev :: l₁, l₂, st => by
    rw [List.cons_append, runEvents, runEvents]
    cases hstep : step ctx g st ev with
    | none => rfl
    | some st2 => exact runEvents_append ctx g l₁ l₂ st2

/-- The walk only appends to the report. -/
lemma runEvents_report_extend {ctx : Ctx} {g : Graph} : ∀ {evs : List Event}
    {st st' : St}, runEvents ctx g st evs = some st' →
    ∃ l, st'.report = st.report ++ l
  | [], st, st', h => ⟨[], by rw [← Option.some.inj h]; simp⟩
  | ev :: rest, st, st', h => by
    rw [runEvents] at h
    cases hstep : step ctx g st ev with
    | none => rw [hstep] at h; exact Option.noConfusion h
    | some st2 =>
      rw [hstep] at h
      rcases runEvents_report_extend h with ⟨l, hl⟩
      rcases step_char hstep with ⟨rfl, _⟩ | ⟨_, _, hr | ⟨m, hr, _⟩⟩
      · exact ⟨l, hl⟩
      · exact ⟨l, by rw [hl, hr]⟩
      · exact ⟨⟨ev.node.pos, m⟩ :: l, by rw [hl, hr, List.append_assoc]; rfl⟩

/-- Every position inspected after a walk was inspected before it or is
the position of one of the walked events. -/
lemma runEvents_inspected_from {ctx : Ctx} {g : Graph} : ∀ {evs : List Event}
    {st st' : St}, runEvents ctx g st evs = some st' →
    ∀ x ∈ st'.inspected,
      x ∈ st.inspected ∨ ∃ ev ∈ evs, ev.node.pos.off = x
  | [], st, st', h, x, hx => Or.inl ((Option.some.inj h) ▸ hx)
  | ev :: rest, st, st', h, x, hx => by
    rw [runEvents] at h
    cases hstep : step ctx g st ev with
    | none => rw [hstep] at h; exact Option.noConfusion h
    | some st2 =>
      rw [hstep] at h
      rcases runEvents_inspected_from h x hx with hx2 | ⟨e, he, heq⟩
      · rcases step_char hstep with ⟨rfl, _⟩ | ⟨_, hins, _⟩
        · exact Or.inl hx2
        · rw [hins] at hx2
          rcases List.mem_cons.mp hx2 with rfl | hx3
          · exact Or.inr ⟨ev, List.mem_cons_self _ _, rfl⟩
          · exact Or.inl hx3
      · exact Or.inr ⟨e, List.mem_cons_of_mem _ he, heq⟩

/-- With pairwise distinct reported positions, filtering the report at
the position of one of its members returns exactly that member. -/
lemma filter_off_singleton : ∀ {l : List Violation},
    ((l.map fun v => v.pos.off).Nodup) → ∀ {v : Violation}, v ∈ l →
    (l.filter fun w => w.pos.off == v.pos.off) = [v]
  | [], _, v, hv => absurd hv (List.not_mem_nil v)
  | a :: l, h, v, hv => by
    rw [List.map_cons, List.nodup_cons] at h
    obtain ⟨ha, h'⟩ := h
    rcases List.mem_cons.mp hv with rfl | hv
    · rw [List.filter_cons, if_pos (by simp)]
      have : (l.filter fun w => w.pos.off == v.pos.off) = [] := by
        rw [List.filter_eq_nil_iff]
        intro w hw hbeq
        rw [beq_iff_eq] at hbeq
        exact ha (hbeq ▸ List.mem_map_of_mem _ hw)
      rw [this]
    · have hne : (a.pos.off == v.pos.off) = false := by
        rw [beq_eq_false_iff_ne]
        intro heq
        exact ha (heq ▸ List.mem_map_of_mem _ hv)
      rw [List.filter_cons, if_neg (by simp [hne])]
      exact filter_off_singleton h' hv

/-- With pairwise distinct reported positions, at most one report sits
at any position. -/
lemma filter_off_le_one : ∀ {l : List Violation},
    ((l.map fun v => v.pos.off).Nodup) → ∀ (k : Nat),
    (l.filter fun v => v.pos.off == k).length ≤ 1
  | [], _, _ => by simp
  | a :: l, h, k => by
    rw [List.map_cons, List.nodup_cons] at h
    obtain ⟨ha, h'⟩ := h
    rw [List.filter_cons]
    by_cases hbeq : (a.pos.off == k) = true
    · rw [if_pos hbeq]
      rw [beq_iff_eq] at hbeq
      have : (l.filter fun v => v.pos.off == k) = [] := by
        rw [List.filter_eq_nil_iff]
        intro w hw hbeq'
        rw [beq_iff_eq] at hbeq'
        exact ha ((hbeq.trans hbeq'.symm) ▸ List.mem_map_of_mem _ hw)
      rw [this]
      simp
    · rw [if_neg hbeq]
      exact filter_off_le_one h' k

/-- C7.  First: over any event stream, however often the traversal
revisits a node, the walk inspects every position at most once and the
final report carries at most one violation per position.  Second: when
the first event at a position is an unguarded access (read or write) in
a live enclosing function, the analysis reports exactly one violation at
that position, carrying the matching read or write message. -/
theorem spec_C7 :
    (∀ (ctx : Ctx) (g : Graph) (evs : List Event) (st' : St),
      runEvents ctx g St.init evs = some st' →
      st'.inspected.Nodup ∧
      ∀ k, (st'.report.filter fun v => v.pos.off == k).length ≤ 1)
    ∧ (∀ (ctx : Ctx) (g : Graph) (pre post : List Event)
        (stack : List Node) (node : Node) (xTy sN : String) (p : Pos)
        (msg : String) (nf : Node) (vs : List Violation),
        ((node = .selector xTy sN p ∧ (sN == leaseFunction) = false ∧
            msg = msgRead) ∨
         (∃ lhs rhs, node = .assign false lhs rhs p ∧
            lhs.getLast? = some (.sel xTy sN) ∧ msg = msgWrite)) →
        typeMatches ctx xTy = true →
        (∀ e ∈ pre, e.node.pos.off ≠ p.off) →
        nearestFunction stack = some nf →
        isFunctionInGraph g nf = true →
        checkLease g nf.pos = some false →
        runAnalyzer ctx g (pre ++ ⟨node, stack⟩ :: post) = some vs →
        (vs.filter fun v => v.pos.off == p.off) = [⟨p, msg⟩]) := by
  constructor
  · intro ctx g evs st' hrun
    have hinv := runEvents_inv invSt_init hrun
    exact ⟨hinv.1, fun k => filter_off_le_one hinv.2.1 k⟩
  · intro ctx g pre post stack node xTy sN p msg nf vs hnode hfound hfresh
      hnf hlive hcl hrun
    unfold runAnalyzer at hrun
    rcases Option.map_eq_some'.mp hrun with ⟨stF, hrunE, hrep⟩
    rw [runEvents_append] at hrunE
    cases hpre : runEvents ctx g St.init pre with
    | none => rw [hpre] at hrunE; exact Option.noConfusion hrunE
    | some stA =>
      rw [hpre] at hrunE
      have hrunE2 : runEvents ctx g stA (Event.mk node stack :: post) =
          some stF := hrunE
      rw [runEvents] at hrunE2
      cases hstep : step ctx g stA ⟨node, stack⟩ with
      | none => rw [hstep] at hrunE2; exact Option.noConfusion hrunE2
      | some stB =>
        rw [hstep] at hrunE2
        have hnmem : ¬ p.off ∈ stA.inspected := by
          intro hmem
          rcases runEvents_inspected_from hpre p.off hmem with h0 | ⟨e, he, heq⟩
          · simp [St.init] at h0
          · exact hfresh e he heq
        have hinA : stA.inspected.contains p.off = false := by simpa using hnmem
        have hstB : stB =
            reportv { stA with inspected := p.off :: stA.inspected } p msg := by
          rcases hnode with ⟨hn, hlease, hmsg⟩ | ⟨lhs, rhs, hn, hlast, hmsg⟩
          · subst hn; subst hmsg
            rw [step_selector_eq hinA hfound hlease,
              accessCheck_eq hnf hlive hcl] at hstep
            exact (Option.some.inj hstep).symm
          · subst hn; subst hmsg
            rw [step_assignW_eq hinA hlast hfound,
              accessCheck_eq hnf hlive hcl] at hstep
            exact (Option.some.inj hstep).symm
        have hvB : (⟨p, msg⟩ : Violation) ∈ stB.report := by
          rw [hstB]
          simp [reportv]
        rcases runEvents_report_extend hrunE2 with ⟨l, hl⟩
        have hvF : (⟨p, msg⟩ : Violation) ∈ stF.report := by
          rw [hl]
          exact List.mem_append_left _ hvB
        have hinvA := runEvents_inv invSt_init hpre
        have hinvB := step_inv hstep hinvA
        have hinvF := runEvents_inv hinvB hrunE2
        rw [← hrep]
        exact filter_off_singleton hinvF.2.1 hvF

/-- C7 witness: a single unguarded read in a live function yields a
report whose restriction to the access position is exactly the one read
violation. -/
theorem spec_C7_witness :
    ([(⟨⟨"a.go", 6, 60⟩, msgRead⟩ : Violation)].filter
      fun v => v.pos.off == 60) = [⟨⟨"a.go", 6, 60⟩, msgRead⟩] :=
  spec_C7.2 ⟨[("G", "G")], fun a b => a == b⟩
    [⟨⟨"main", ⟨"a.go", 1, 1⟩⟩, ⟨"f", ⟨"a.go", 5, 50⟩⟩⟩] [] []
    [Node.funcDecl "f" (some []) ⟨"a.go", 5, 50⟩]
    (.selector "G" "x" ⟨"a.go", 6, 60⟩) "G" "x" ⟨"a.go", 6, 60⟩ msgRead
    (Node.funcDecl "f" (some []) ⟨"a.go", 5, 50⟩)
    [⟨⟨"a.go", 6, 60⟩, msgRead⟩]
    (Or.inl ⟨rfl, by decide, rfl⟩) (by decide)
    (fun e he => absurd he (List.not_mem_nil e))
    (by decide) (by decide) (by decide) (by decide)

/-- Every violation present after a walk was present before it or
carries one of the four diagnostic strings. -/
lemma runEvents_msgs {ctx : Ctx} {g : Graph} : ∀ {evs : List Event}
    {st st' : St}, runEvents ctx g st evs = some st' →
    ∀ v ∈ st'.report, v ∈ st.report ∨
      (v.msg = msgArgPass ∨ v.msg = msgRead ∨ v.msg = msgMulti ∨
        v.msg = msgWrite)
  | [], st, st', h, v, hv => Or.inl ((Option.some.inj h) ▸ hv)
  | ev :: rest, st, st', h, v, hv => by
    rw [runEvents] at h
    cases hstep : step ctx g st ev with
    | none => rw [hstep] at h; exact Option.noConfusion h
    | some st2 =>
      rw [hstep] at h
      rcases runEvents_msgs h v hv with hv2 | hmsg
      · rcases step_char hstep with ⟨rfl, _⟩ | ⟨_, _, hr | ⟨m, hr, hm⟩⟩
        · exact Or.inl hv2
        · rw [hr] at hv2; exact Or.inl hv2
        · rw [hr] at hv2
          rcases List.mem_append.mp hv2 with hv3 | hv3
          · exact Or.inl hv3
          · simp only [List.mem_singleton] at hv3
            subst hv3
            exact Or.inr hm
      · exact Or.inr hmsg

/-- C8 counterexample.  The analyzer emits the string
access of crit.Section without Lease, which is not one of the four
message strings the specification prescribes. -/
theorem spec_C8_cex :
    runAnalyzer ⟨[("G", "G")], fun a b => a == b⟩
        [⟨⟨"main", ⟨"a.go", 1, 1⟩⟩, ⟨"f", ⟨"a.go", 5, 50⟩⟩⟩]
        [⟨.selector "G" "x" ⟨"a.go", 6, 60⟩,
          [Node.funcDecl "f" (some []) ⟨"a.go", 5, 50⟩]⟩]
      = some [⟨⟨"a.go", 6, 60⟩, "access of crit.Section without Lease"⟩]
    ∧ ¬ ("access of crit.Section without Lease" ∈
        (["guarded-section types cannot be passed to a function",
          "assignment to guarded-section without lease",
          "access of guarded-section without lease",
          "multiple instance of a guarded-section derived type"] :
          List String)) := by
  decide

/-- C8 as amended.  Every diagnostic the analyzer emits carries exactly
one of the four strings found in the source: crit.Section types cannot
be passed to a function; assignment to crit.Section without Lease;
access of crit.Section without Lease; multiple instance of a
crit.Section derived type.  No other message text is ever emitted. -/
theorem spec_C8 (ctx : Ctx) (g : Graph) (evs : List Event)
    (vs : List Violation) (h : runAnalyzer ctx g evs = some vs) :
    ∀ v ∈ vs, v.msg = msgArgPass ∨ v.msg = msgRead ∨ v.msg = msgMulti ∨
      v.msg = msgWrite := by
  intro v hv
  unfold runAnalyzer at h
  rcases Option.map_eq_some'.mp h with ⟨stF, hrun, hrep⟩
  rw [← hrep] at hv
  rcases runEvents_msgs hrun v hv with h0 | hmsg
  · simp [St.init] at h0
  · exact hmsg

/-- C8 witness: the message of the one violation of a concrete run is
among the four strings. -/
theorem spec_C8_witness :
    (⟨⟨"a.go", 6, 60⟩, msgRead⟩ : Violation).msg = msgArgPass ∨
    (⟨⟨"a.go", 6, 60⟩, msgRead⟩ : Violation).msg = msgRead ∨
    (⟨⟨"a.go", 6, 60⟩, msgRead⟩ : Violation).msg = msgMulti ∨
    (⟨⟨"a.go", 6, 60⟩, msgRead⟩ : Violation).msg = msgWrite :=
  spec_C8 ⟨[("G", "G")], fun a b => a == b⟩
    [⟨⟨"main", ⟨"a.go", 1, 1⟩⟩, ⟨"f", ⟨"a.go", 5, 50⟩⟩⟩]
    [⟨.selector "G" "x" ⟨"a.go", 6, 60⟩,
      [Node.funcDecl "f" (some []) ⟨"a.go", 5, 50⟩]⟩]
    [⟨⟨"a.go", 6, 60⟩, msgRead⟩] (by decide)
    ⟨⟨"a.go", 6, 60⟩, msgRead⟩ (by simp)

/-- C9.  The analysis is a deterministic function of its input: a rerun
returns the identical, identically ordered list, and the one source of
run-to-run nondeterminism in the implementation — the order in which
GraphVisitEdges happens to enumerate the edges — cannot change the lease
check when every matching upward search terminates. -/
theorem spec_C9 (g : Graph) (p : Pos) (l₁ l₂ : List Edge)
    (hperm : l₁.Perm l₂)
    (hterm : ∀ e ∈ l₁, positionCompare p e.callee.pos = true →
      check g (g.length + 1) e ≠ none)
    (ctx : Ctx) (evs : List Event) :
    visitEdges g p l₁ = visitEdges g p l₂
    ∧ runAnalyzer ctx g evs = runAnalyzer ctx g evs := by
  refine ⟨?_, rfl⟩
  have hterm₂ : ∀ e ∈ l₂, positionCompare p e.callee.pos = true →
      check g (g.length + 1) e ≠ none :=
    fun e he hp => hterm e (hperm.mem_iff.mpr he) hp
  rw [visitEdges_term hterm, visitEdges_term hterm₂]
  exact congrArg some (any_perm hperm _)

/-- C9 witness: two enumeration orders of the same two edges produce the
same checkLease verdict. -/
theorem spec_C9_witness :
    visitEdges
      [⟨⟨"Lease", ⟨"a.go", 1, 1⟩⟩, ⟨"f", ⟨"a.go", 5, 50⟩⟩⟩,
       ⟨⟨"main", ⟨"a.go", 2, 9⟩⟩, ⟨"f", ⟨"a.go", 5, 50⟩⟩⟩]
      ⟨"a.go", 5, 50⟩
      [⟨⟨"Lease", ⟨"a.go", 1, 1⟩⟩, ⟨"f", ⟨"a.go", 5, 50⟩⟩⟩,
       ⟨⟨"main", ⟨"a.go", 2, 9⟩⟩, ⟨"f", ⟨"a.go", 5, 50⟩⟩⟩] =
    visitEdges
      [⟨⟨"Lease", ⟨"a.go", 1, 1⟩⟩, ⟨"f", ⟨"a.go", 5, 50⟩⟩⟩,
       ⟨⟨"main", ⟨"a.go", 2, 9⟩⟩, ⟨"f", ⟨"a.go", 5, 50⟩⟩⟩]
      ⟨"a.go", 5, 50⟩
      [⟨⟨"main", ⟨"a.go", 2, 9⟩⟩, ⟨"f", ⟨"a.go", 5, 50⟩⟩⟩,
       ⟨⟨"Lease", ⟨"a.go", 1, 1⟩⟩, ⟨"f", ⟨"a.go", 5, 50⟩⟩⟩]
    ∧ runAnalyzer ⟨[], fun _ _ => false⟩
        [⟨⟨"Lease", ⟨"a.go", 1, 1⟩⟩, ⟨"f", ⟨"a.go", 5, 50⟩⟩⟩,
         ⟨⟨"main", ⟨"a.go", 2, 9⟩⟩, ⟨"f", ⟨"a.go", 5, 50⟩⟩⟩] [] =
      runAnalyzer ⟨[], fun _ _ => false⟩
        [⟨⟨"Lease", ⟨"a.go", 1, 1⟩⟩, ⟨"f", ⟨"a.go", 5, 50⟩⟩⟩,
         ⟨⟨"main", ⟨"a.go", 2, 9⟩⟩, ⟨"f", ⟨"a.go", 5, 50⟩⟩⟩] [] :=
  spec_C9
    [⟨⟨"Lease", ⟨"a.go", 1, 1⟩⟩, ⟨"f", ⟨"a.go", 5, 50⟩⟩⟩,
     ⟨⟨"main", ⟨"a.go", 2, 9⟩⟩, ⟨"f", ⟨"a.go", 5, 50⟩⟩⟩]
    ⟨"a.go", 5, 50⟩
    [⟨⟨"Lease", ⟨"a.go", 1, 1⟩⟩, ⟨"f", ⟨"a.go", 5, 50⟩⟩⟩,
     ⟨⟨"main", ⟨"a.go", 2, 9⟩⟩, ⟨"f", ⟨"a.go", 5, 50⟩⟩⟩]
    [⟨⟨"main", ⟨"a.go", 2, 9⟩⟩, ⟨"f", ⟨"a.go", 5, 50⟩⟩⟩,
     ⟨⟨"Lease", ⟨"a.go", 1, 1⟩⟩, ⟨"f", ⟨"a.go", 5, 50⟩⟩⟩]
    (by decide) (by decide) ⟨[], fun _ _ => false⟩ []

/-- A rank certificate for one edge: either its caller is named Lease,
or the caller has no incoming edge, or the first incoming edge strictly
lowers the rank of the caller. -/
def descendingB (g : Graph) (r : GFunc → Nat) (e : Edge) : Bool :=
  (e.caller.name == leaseFunction) ||
  (match ins g e.caller with
   | [] => true
   | e' :: _ => decide (r e'.caller < r e.caller))

/-- C10 counterexample.  On a call graph with a single self edge — a
directly recursive function — the upward walk follows the first incoming
edge back to itself forever: no amount of fuel resolves it, so the
source recursion, which carries no fuel and no visited set, does not
terminate on this finite cyclic graph. -/
theorem spec_C10_cex :
    ¬ checkTerminates [⟨⟨"f", ⟨"a.go", 1, 1⟩⟩, ⟨"f", ⟨"a.go", 1, 1⟩⟩⟩]
        ⟨⟨"f", ⟨"a.go", 1, 1⟩⟩, ⟨"f", ⟨"a.go", 1, 1⟩⟩⟩ := by
  intro h
  obtain ⟨n, hn⟩ := h
  apply hn
  clear hn
  induction n with
  | zero => rfl
  | succ k ih =>
    rw [check, if_neg (by decide),
      show ins [⟨⟨"f", ⟨"a.go", 1, 1⟩⟩, ⟨"f", ⟨"a.go", 1, 1⟩⟩⟩]
          ⟨"f", ⟨"a.go", 1, 1⟩⟩ =
        [⟨⟨"f", ⟨"a.go", 1, 1⟩⟩, ⟨"f", ⟨"a.go", 1, 1⟩⟩⟩] from rfl]
    exact ih

/-- C10 as amended.  The upward walk terminates on every edge certified
by a rank function that strictly decreases along first incoming edges
(in particular on graphs whose followed caller chains are acyclic); on a
cyclic first-predecessor chain that never reaches the Lease name, such
as a directly recursive function, it does not terminate. -/
theorem spec_C10 (g : Graph) (r : GFunc → Nat) (e : Edge)
    (hg : ∀ e' ∈ g, descendingB g r e' = true) :
    checkTerminates g e := by
  have aux : ∀ (n : Nat), ∀ e' ∈ g, r e'.caller ≤ n →
      check g (n + 1) e' ≠ none := by
    intro n
    induction n using Nat.strong_induction_on with
    | _ n ih =>
      intro e' he' hr
      rw [check]
      by_cases hl : (e'.caller.name == leaseFunction) = true
      · rw [if_pos hl]; simp
      · rw [if_neg hl]
        cases hins : ins g e'.caller with
        | nil => simp
        | cons e₂ rest =>
          have hd := hg e' he'
          unfold descendingB at hd
          have hl' : (e'.caller.name == leaseFunction) = false :=
            Bool.eq_false_iff.mpr hl
          rw [hl', hins] at hd
          simp at hd
          have he₂ : e₂ ∈ g := by
            have h2 : e₂ ∈ ins g e'.caller := by
              rw [hins]; exact List.mem_cons_self _ _
            exact List.mem_of_mem_filter h2
          cases n with
          | zero => exact absurd (Nat.lt_of_lt_of_le hd hr) (Nat.not_lt_zero _)
          | succ m =>
            exact ih m (Nat.lt_succ_self m) e₂ he₂ (by omega)
  by_cases hl : (e.caller.name == leaseFunction) = true
  · exact ⟨1, by rw [check, if_pos hl]; simp⟩
  · cases hins : ins g e.caller with
    | nil => exact ⟨1, by rw [check, if_neg hl, hins]; simp⟩
    | cons e₂ rest =>
      have he₂ : e₂ ∈ g := by
        have h2 : e₂ ∈ ins g e.caller := by
          rw [hins]; exact List.mem_cons_self _ _
        exact List.mem_of_mem_filter h2
      refine ⟨r e₂.caller + 2, ?_⟩
      rw [check, if_neg hl, hins]
      exact aux (r e₂.caller) e₂ he₂ (Nat.le_refl _)

/-- C10 witness: on an acyclic graph where main calls f and the Lease
caller invokes main, the walk from the f edge terminates, certified by a
rank that counts down toward the Lease caller. -/
theorem spec_C10_witness :
    checkTerminates
      [⟨⟨"main", ⟨"a.go", 2, 9⟩⟩, ⟨"f", ⟨"a.go", 5, 50⟩⟩⟩,
       ⟨⟨"Lease", ⟨"c.go", 1, 1⟩⟩, ⟨"main", ⟨"a.go", 2, 9⟩⟩⟩]
      ⟨⟨"main", ⟨"a.go", 2, 9⟩⟩, ⟨"f", ⟨"a.go", 5, 50⟩⟩⟩ :=
  spec_C10
    [⟨⟨"main", ⟨"a.go", 2, 9⟩⟩, ⟨"f", ⟨"a.go", 5, 50⟩⟩⟩,
     ⟨⟨"Lease", ⟨"c.go", 1, 1⟩⟩, ⟨"main", ⟨"a.go", 2, 9⟩⟩⟩]
    (fun f => if f.name == "main" then 1 else 0)
    ⟨⟨"main", ⟨"a.go", 2, 9⟩⟩, ⟨"f", ⟨"a.go", 5, 50⟩⟩⟩
    (by decide)

end Critsec
